import Mathlib

/-!
Shallow embedding of the spatial scene-graph core of
`src/desktop/plugins/public/ui-debugger/components/Visualization2D.tsx`:
the tree projector (`toNestedNode`), focus resolver (`caclulateFocusState`
and `findNodeAndGlobalOffsetRec`), hit tester (`hitTest`) and overlay
offset accumulator (`getTotalOffset`).

Modelling conventions:
* JS numbers are modelled as `Rat` (no claim involves division or NaN).
* Node ids are modelled as `String`; the JS truthiness test
  `node.activeChild ? _ : _` is modelled as an `Option` match (ids are
  assumed nonempty, so a present id is truthy).
* `Map<Id, ClientNode>` is modelled as an association list with
  first-match lookup (a JS `Map` has unique keys).
* The TS functions `toNestedNode` and `getTotalOffset` recurse through the
  raw map and do not terminate on cyclic inputs (documented precondition);
  they are embedded with an explicit fuel argument, `none` standing for
  non-termination within the given fuel.
* A JS runtime crash (dereferencing `undefined`, as `hitTest` does when
  `activeChildIdx` is out of range: `node.children[idx]` yields
  `undefined` and `hitTestRec` then reads `undefined.bounds`) is modelled
  by the `Option` result `none`.
* `Array.prototype.sort` is stable (ES2019); a stable sort by a fixed
  comparator has a uniquely determined output, so it is embedded as a
  stable insertion sort by the same comparator.
* The `attributes` and `tags` payload fields of nodes are never read by
  any of the embedded functions and are omitted from the model.
-/

/-- `Bounds {x, y, width, height}` from `ClientTypes`. -/
structure Bounds where
  x : Rat
  y : Rat
  width : Rat
  height : Rat
deriving Repr, DecidableEq

/-- `Coordinate {x, y}` from `ClientTypes`. -/
structure Coordinate where
  x : Rat
  y : Rat
deriving Repr, DecidableEq

/-- The fields of a raw `ClientNode` read by the embedded functions:
`id`, `name`, `bounds`, `children` (ids), `activeChild` (id), `parent`. -/
structure ClientNode where
  id : String
  name : String
  bounds : Bounds
  children : List String
  activeChild : Option String
  parent : Option String
deriving Repr, DecidableEq

/-- The raw node map `Map<Id, ClientNode>`. -/
def NodeMap : Type := List (String × ClientNode)

/-- `nodes.get(id)` on the raw map. -/
def NodeMap.get (nodes : NodeMap) (i : String) : Option ClientNode :=
  List.lookup i nodes

/-- `NestedNode` from `DesktopTypes`: the projector's output tree.
`activeChildIdx` is an `Option Int` because `Array.prototype.indexOf`
returns `-1` on a miss. -/
inductive NestedNode where
  | mk (id : String) (name : String) (bounds : Bounds)
       (children : List NestedNode) (activeChildIdx : Option Int)

/-- Projection: the `id` field of a `NestedNode`. -/
def NestedNode.id : NestedNode → String
  | .mk i _ _ _ _ => i

/-- Projection: the `name` field of a `NestedNode`. -/
def NestedNode.name : NestedNode → String
  | .mk _ n _ _ _ => n

/-- Projection: the `bounds` field of a `NestedNode`. -/
def NestedNode.bounds : NestedNode → Bounds
  | .mk _ _ b _ _ => b

/-- Projection: the `children` field of a `NestedNode`. -/
def NestedNode.children : NestedNode → List NestedNode
  | .mk _ _ _ cs _ => cs

/-- Projection: the `activeChildIdx` field of a `NestedNode`. -/
def NestedNode.activeChildIdx : NestedNode → Option Int
  | .mk _ _ _ _ a => a

/-- `Array.prototype.indexOf`: first index of `a` in `l`, `-1` on a miss. -/
def indexOfId (l : List String) (a : String) : Int :=
  match l.findIdx? (· = a) with
  | some i => (i : Int)
  | none => -1

/-- Sequencing of a list of `Option`s, as produced by mapping a fallible
function over a list; `none` if any element is `none`. -/
def seqOption : List (Option α) → Option (List α)
  | [] => some []
  | none :: _ => none
  | some a :: os => (seqOption os).map (a :: ·)

/-- The inner `uiNodeToNestedNode` of `toNestedNode`, with fuel for the
unbounded recursion through the raw map:
filters `node.children` to ids that resolve in `nodes`, computes
`activeChildIdx = node.activeChild ? nonNullChildren.indexOf(node.activeChild) : undefined`,
and recursively projects the surviving children. -/
def uiNodeToNestedNode (nodes : NodeMap) : Nat → ClientNode → Option NestedNode
  | 0, _ => none
  | fuel + 1, node =>
    let nonNullChildren := node.children.filter (fun c => (nodes.get c).isSome)
    let activeChildIdx : Option Int :=
      node.activeChild.map (fun a => indexOfId nonNullChildren a)
    (seqOption (nonNullChildren.map
        (fun c => (nodes.get c).bind (uiNodeToNestedNode nodes fuel)))).map
      (fun cs => NestedNode.mk node.id node.name node.bounds cs activeChildIdx)

/-- `toNestedNode(rootId, nodes)`: `undefined` when the root id is absent,
otherwise the projected tree. -/
def toNestedNode (fuel : Nat) (rootId : String) (nodes : NodeMap) :
    Option NestedNode :=
  match nodes.get rootId with
  | some root => uiNodeToNestedNode nodes fuel root
  | none => none

/-- `FocusState` of the focus resolver. -/
structure FocusState where
  actualRoot : NestedNode
  focusedRoot : NestedNode
  focusedRootGlobalOffset : Coordinate

/-- The `produce(node, draft => {draft.bounds.x = 0; draft.bounds.y = 0})`
copy made by `findNodeAndGlobalOffsetRec`: same node with `bounds.x` and
`bounds.y` zeroed, everything else unchanged. -/
def zeroXY : NestedNode → NestedNode
  | .mk i n b cs a => .mk i n ⟨0, 0, b.width, b.height⟩ cs a

/-- `findNodeAndGlobalOffsetRec`, merged with its `for`-loop over children:
`findNodeAndGlobalOffsetRec ns off root tgt` processes the sibling list
`ns`, each sibling receiving the accumulated offset `off`; at each node it
first adds the node's own `bounds.x/y` to the offset, then matches the id,
then descends pre-order into the children, falling back to the remaining
siblings. The source's call `findNodeAndGlobalOffsetRec(root, {x:0,y:0},
root, target)` is `findNodeAndGlobalOffsetRec [root] ⟨0,0⟩ root target`. -/
def findNodeAndGlobalOffsetRec :
    List NestedNode → Coordinate → NestedNode → String → Option FocusState
  | [], _, _, _ => none
  | .mk i n b cs a :: rest, globalOffset, root, target =>
    let nextOffset : Coordinate := ⟨globalOffset.x + b.x, globalOffset.y + b.y⟩
    if i = target then
      some ⟨root, zeroXY (.mk i n b cs a), nextOffset⟩
    else
      match findNodeAndGlobalOffsetRec cs nextOffset root target with
      | some fs => some fs
      | none => findNodeAndGlobalOffsetRec rest globalOffset root target
termination_by ns => sizeOf ns
decreasing_by all_goals simp <;> omega

/-- `caclulateFocusState(root, target)` (sic). -/
def caclulateFocusState (root : NestedNode) (target : Option String) :
    FocusState :=
  let rootFocusState : FocusState := ⟨root, root, ⟨0, 0⟩⟩
  match target with
  | none => rootFocusState
  | some t =>
    (findNodeAndGlobalOffsetRec [root] ⟨0, 0⟩ root t).getD rootFocusState

/-- `boundsContainsCoordinate`: inclusive containment test. -/
def boundsContainsCoordinate (bounds : Bounds) (coordinate : Coordinate) :
    Bool :=
  coordinate.x ≥ bounds.x && coordinate.x ≤ bounds.x + bounds.width &&
  coordinate.y ≥ bounds.y && coordinate.y ≤ bounds.y + bounds.height

/-- `offsetCoordinate`: componentwise subtraction. -/
def offsetCoordinate (coordinate offset : Coordinate) : Coordinate :=
  ⟨coordinate.x - offset.x, coordinate.y - offset.y⟩

/-- The candidate children `hitTestRec` iterates over:
`node.children` when `activeChildIdx` is null, otherwise the singleton
`[node.children[activeChildIdx]]`; an out-of-range index makes that
element `undefined` (the recursive call then crashes), modelled `none`. -/
def candidates (cs : List NestedNode) : Option Int →
    Option (List NestedNode)
  | none => some cs
  | some k =>
    if h : 0 ≤ k ∧ k.toNat < cs.length then some [cs.get ⟨k.toNat, h.2⟩]
    else none

/-- `hitTestRec`, merged with its `for`-loop over the candidate children:
`hitTestNodes ns mouse` processes the sibling list `ns` in order, returning
`(whether any sibling was a terminal hit, the pushes to res in order)`;
a node is pushed exactly when it contains the mouse and no candidate child
was itself a terminal hit. `none` models the crash on an out-of-range
`activeChildIdx`. -/
def hitTestNodes : List NestedNode → Coordinate →
    Option (Bool × List NestedNode)
  | [], _ => some (false, [])
  | .mk i n b cs a :: rest, mouseCoordinate =>
    let thisNodeHit := boundsContainsCoordinate b mouseCoordinate
    match hk : candidates cs a with
    | none => none
    | some kids =>
      match hitTestNodes kids (offsetCoordinate mouseCoordinate ⟨b.x, b.y⟩) with
      | none => none
      | some (childHit, childRes) =>
        match hitTestNodes rest mouseCoordinate with
        | none => none
        | some (restHit, restRes) =>
          let hit := thisNodeHit && !childHit
          some (hit || restHit,
            childRes ++ (if hit then [NestedNode.mk i n b cs a] else [])
              ++ restRes)
termination_by ns => sizeOf ns
decreasing_by
all_goals simp_wf
all_goals
  have hsz : sizeOf kids ≤ 1 + sizeOf cs := by
    cases a with
    | none =>
      simp only [candidates, Option.some.injEq] at hk
      subst hk
      omega
    | some k =>
      simp only [candidates] at hk
      split at hk
      · cases hk
        rename_i hrange
        have hmem := List.get_mem cs k.toNat hrange.2
        have := List.sizeOf_lt_of_mem hmem
        simp at this ⊢
        omega
      · cases hk
all_goals simp
all_goals omega

/-- Bounding-box area used by the hit-test comparator. -/
def area (n : NestedNode) : Rat := n.bounds.height * n.bounds.width

/-- Stable insertion of `a` into a list sorted ascending by `area`: `a`
goes before the first element of strictly larger area (so, after all
earlier elements of equal area — stability). -/
def insertByArea (a : NestedNode) : List NestedNode → List NestedNode
  | [] => [a]
  | b :: bs => if area a < area b then a :: b :: bs else b :: insertByArea a bs

/-- `res.sort(comparator)` with the area comparator: `Array.prototype.sort`
is stable, and a stable sort by a fixed comparator has a uniquely
determined output, here realised as stable insertion sort. -/
def sortByArea : List NestedNode → List NestedNode
  | [] => []
  | a :: as => insertByArea a (sortByArea as)

/-- `hitTest(node, mouseCoordinate)`: run `hitTestRec` on the root, then
sort the collected terminal hits ascending by area. -/
def hitTest (node : NestedNode) (mouseCoordinate : Coordinate) :
    Option (List NestedNode) :=
  (hitTestNodes [node] mouseCoordinate).map (fun r => sortByArea r.2)

/-- The `getTotalOffset` while-loop, with fuel:
`getTotalOffsetLoop nodes fuel curId offset`. While `curId != null`, it
looks `curId` up; on success it adds the node's `bounds.x/y` to the
accumulator and follows `parent`; on failure `curId` becomes `undefined`
and the loop exits. -/
def getTotalOffsetLoop (nodes : NodeMap) :
    Nat → Option String → Coordinate → Option Coordinate
  | _, none, offset => some offset
  | 0, some _, _ => none
  | fuel + 1, some curId, offset =>
    match nodes.get curId with
    | some cur =>
      getTotalOffsetLoop nodes fuel cur.parent
        ⟨offset.x + cur.bounds.x, offset.y + cur.bounds.y⟩
    | none => some offset

/-- `getTotalOffset(id, nodes)`: cumulative offset of `id` from the root,
walking raw parent links, starting from accumulator `{x: 0, y: 0}`. -/
def getTotalOffset (fuel : Nat) (id : String) (nodes : NodeMap) :
    Option Coordinate :=
  getTotalOffsetLoop nodes fuel (some id) ⟨0, 0⟩

/-- The chain of raw nodes visited by the `getTotalOffset` loop: follows
`parent` links, stopping at a null or unresolved link (same fuel policy as
the loop, `none` standing for running out of fuel / a parent cycle). -/
def parentChain (nodes : NodeMap) :
    Nat → Option String → Option (List ClientNode)
  | _, none => some []
  | 0, some _ => none
  | fuel + 1, some curId =>
    match nodes.get curId with
    | some cur => (parentChain nodes fuel cur.parent).map (cur :: ·)
    | none => some []

/-! ### Derived tree vocabulary used to state the claims -/

/-- All nodes occurring in a list of trees (each root included),
in pre-order. -/
def subtreeNodes : List NestedNode → List NestedNode
  | [] => []
  | .mk i n b cs a :: rest =>
    .mk i n b cs a :: (subtreeNodes cs ++ subtreeNodes rest)
termination_by ns => sizeOf ns
decreasing_by all_goals simp <;> omega

/-- All nodes the hit tester can ever visit: at each node only the
candidate children (the single active child when `activeChildIdx` is set)
are descended into. -/
def visibleNodes : List NestedNode → List NestedNode
  | [] => []
  | .mk i n b cs a :: rest =>
    .mk i n b cs a ::
      (visibleNodes ((candidates cs a).getD []) ++ visibleNodes rest)
termination_by ns => sizeOf ns
decreasing_by
all_goals simp_wf
· rcases hc : candidates cs a with _ | kids
  · simp [hc]
    omega
  · have hsz : sizeOf kids ≤ 1 + sizeOf cs := by
      cases a with
      | none =>
        simp only [candidates, Option.some.injEq] at hc
        subst hc
        omega
      | some k =>
        simp only [candidates] at hc
        split at hc
        · cases hc
          rename_i hrange
          have hmem := List.get_mem cs k.toNat hrange.2
          have := List.sizeOf_lt_of_mem hmem
          simp at this ⊢
          omega
        · cases hc
    simp [hc]
    omega

/-- The pre-order path (root first, target last, both included) to the
first node whose id is `tgt`, searching a sibling list left to right:
mirrors the search order of `findNodeAndGlobalOffsetRec`. -/
def findPath : List NestedNode → String → Option (List NestedNode)
  | [], _ => none
  | .mk i n b cs a :: rest, tgt =>
    if i = tgt then some [NestedNode.mk i n b cs a]
    else
      match findPath cs tgt with
      | some p => some (NestedNode.mk i n b cs a :: p)
      | none => findPath rest tgt
termination_by ns => sizeOf ns
decreasing_by all_goals simp <;> omega

/-! ### Concrete instances used to exercise the definitions -/

/-- Raw node `B`, an ordinary resolvable child. -/
def exRawB : ClientNode := ⟨"B", "B", ⟨10, 10, 50, 50⟩, [], none, some "A"⟩

/-- Raw node `A` whose `activeChild` is the dangling id `"ghost"`. -/
def exRawA : ClientNode := ⟨"A", "A", ⟨0, 0, 100, 100⟩, ["B"], some "ghost", none⟩

/-- Raw map with a dangling `activeChild` on the root. -/
def exDangMap : NodeMap := [("A", exRawA), ("B", exRawB)]

/-- Projection of `exDangMap`'s node `B`. -/
def exDangTreeB : NestedNode := .mk "B" "B" ⟨10, 10, 50, 50⟩ [] none

/-- Projection of `exDangMap`'s root: `activeChildIdx` is `-1`. -/
def exDangTreeA : NestedNode :=
  .mk "A" "A" ⟨0, 0, 100, 100⟩ [exDangTreeB] (some (-1))

/-- Raw node `G` listing the dangling child id `"ghost"`. -/
def exRawG : ClientNode :=
  ⟨"G", "G", ⟨0, 0, 30, 30⟩, ["B", "ghost"], none, none⟩

/-- Raw map where the root lists a child id absent from the map. -/
def exGhostMap : NodeMap := [("G", exRawG), ("B", exRawB)]

/-- Raw node `C` of the resolving active-child example. -/
def exActC : ClientNode := ⟨"C", "C", ⟨1, 1, 2, 2⟩, [], none, none⟩

/-- Raw root with children `[B, C]` and `activeChild = "C"`. -/
def exActA : ClientNode :=
  ⟨"A2", "A2", ⟨0, 0, 100, 100⟩, ["B", "C"], some "C", none⟩

/-- Raw map of the resolving active-child example. -/
def exActMap : NodeMap := [("A2", exActA), ("B", exRawB), ("C", exActC)]

/-- Projection of `exActC`. -/
def exActTreeC : NestedNode := .mk "C" "C" ⟨1, 1, 2, 2⟩ [] none

/-- Projection of `exActA`: `activeChildIdx = 1`, the position of `"C"`
among the filtered children `["B", "C"]`. -/
def exActTree : NestedNode :=
  .mk "A2" "A2" ⟨0, 0, 100, 100⟩ [exDangTreeB, exActTreeC] (some 1)

/-- Projection of `exRawG`: the dangling child id `"ghost"` is dropped. -/
def exGhostTree : NestedNode := .mk "G" "G" ⟨0, 0, 30, 30⟩ [exDangTreeB] none

/-- Projected tree `B` of the focus example: bounds `(5,5,20,20)`. -/
def exFocB : NestedNode := .mk "B" "B" ⟨5, 5, 20, 20⟩ [] none

/-- Projected tree `A` of the focus example: bounds `(10,10,50,50)`. -/
def exFocA : NestedNode := .mk "A" "A" ⟨10, 10, 50, 50⟩ [exFocB] none

/-- Projected root `R` of the focus example: bounds `(0,0,200,200)`. -/
def exFocR : NestedNode := .mk "R" "R" ⟨0, 0, 200, 200⟩ [exFocA] none

/-- A single projected node at `(5,7)`: a tree whose root is its own
focus target. -/
def exSolo : NestedNode := .mk "solo" "solo" ⟨5, 7, 10, 10⟩ [] none

/-- Innermost chain: grandchild `C` of the deep hit-test example. -/
def exDeepC : NestedNode := .mk "C" "C" ⟨0, 0, 10, 10⟩ [] none

/-- Innermost chain: middle node `B` of the deep hit-test example. -/
def exDeepB : NestedNode := .mk "B" "B" ⟨0, 0, 50, 50⟩ [exDeepC] none

/-- Innermost chain: root `A` of the deep hit-test example; `A ⊃ B ⊃ C`
all contain the pointer `(2,2)`. -/
def exDeepA : NestedNode := .mk "A" "A" ⟨0, 0, 100, 100⟩ [exDeepB] none

/-- Two-level hit-test example: child `C` with bounds `(10,10,20,20)`. -/
def exHitC : NestedNode := .mk "C" "C" ⟨10, 10, 20, 20⟩ [] none

/-- Two-level hit-test example: root with bounds `(0,0,100,100)`. -/
def exHitRoot : NestedNode := .mk "root" "root" ⟨0, 0, 100, 100⟩ [exHitC] none

/-- Active-child example: hidden sibling `D` with bounds `(0,0,50,50)`. -/
def exTabD : NestedNode := .mk "D" "D" ⟨0, 0, 50, 50⟩ [] none

/-- Active-child example: active sibling `E` with bounds `(0,0,50,50)`. -/
def exTabE : NestedNode := .mk "E" "E" ⟨0, 0, 50, 50⟩ [] none

/-- Active-child example: root with overlapping children `[D, E]` and
`activeChildIdx = 1`. -/
def exTabRoot : NestedNode :=
  .mk "tabs" "tabs" ⟨0, 0, 100, 100⟩ [exTabD, exTabE] (some 1)

/-- Area-sort example: terminal hit of area `400`. -/
def exBigHit : NestedNode := .mk "big" "big" ⟨0, 0, 20, 20⟩ [] none

/-- Area-sort example: terminal hit of area `100`. -/
def exSmallHit : NestedNode := .mk "small" "small" ⟨0, 0, 10, 10⟩ [] none

/-- Area-sort example: root with two overlapping terminal-hit leaves of
areas `400` and `100`. -/
def exSortRoot : NestedNode :=
  .mk "sroot" "sroot" ⟨0, 0, 100, 100⟩ [exBigHit, exSmallHit] none

/-- Offset example: raw parent at `(3,4)`. -/
def exOffP : ClientNode := ⟨"p", "p", ⟨3, 4, 10, 10⟩, ["q"], none, none⟩

/-- Offset example: raw child at `(5,6)` with parent `p`. -/
def exOffQ : ClientNode := ⟨"q", "q", ⟨5, 6, 10, 10⟩, [], none, some "p"⟩

/-- Offset example map. -/
def exOffMap : NodeMap := [("p", exOffP), ("q", exOffQ)]

/-! ### Lemmas about the stable area sort -/

/-- Membership in an `insertByArea` insertion. -/
theorem mem_insertByArea {x a : NestedNode} {l : List NestedNode} :
    x ∈ insertByArea a l ↔ x = a ∨ x ∈ l := by
  induction l with
  | nil => simp [insertByArea]
  | cons b bs ih =>
    simp only [insertByArea]
    split
    · simp [List.mem_cons]
    · simp only [List.mem_cons, ih]
      tauto

/-- `sortByArea` permutes membership. -/
theorem mem_sortByArea {x : NestedNode} {l : List NestedNode} :
    x ∈ sortByArea l ↔ x ∈ l := by
  induction l with
  | nil => simp [sortByArea]
  | cons a as ih => simp [sortByArea, mem_insertByArea, ih]

/-- `insertByArea` preserves ascending-by-area sortedness. -/
theorem pairwise_insertByArea {a : NestedNode} {l : List NestedNode}
    (h : l.Pairwise (fun u v => area u ≤ area v)) :
    (insertByArea a l).Pairwise (fun u v => area u ≤ area v) := by
  induction l with
  | nil => simp [insertByArea]
  | cons b bs ih =>
    rcases List.pairwise_cons.mp h with ⟨hb, hbs⟩
    simp only [insertByArea]
    split
    · rename_i hab
      refine List.pairwise_cons.mpr ⟨?_, h⟩
      intro y hy
      rcases List.mem_cons.mp hy with rfl | hy
      · exact le_of_lt hab
      · exact le_trans (le_of_lt hab) (hb y hy)
    · rename_i hab
      refine List.pairwise_cons.mpr ⟨?_, ih hbs⟩
      intro y hy
      rcases mem_insertByArea.mp hy with rfl | hy
      · exact le_of_not_lt hab
      · exact hb y hy

/-- The output of `sortByArea` is sorted ascending by area. -/
theorem pairwise_sortByArea (l : List NestedNode) :
    (sortByArea l).Pairwise (fun u v => area u ≤ area v) := by
  induction l with
  | nil => simp [sortByArea]
  | cons a as ih => exact pairwise_insertByArea ih

/-! ### Lemmas about `seqOption` -/

/-- A successful `seqOption` preserves length. -/
theorem seqOption_length {l : List (Option α)} {xs : List α}
    (h : seqOption l = some xs) : xs.length = l.length := by
  induction l generalizing xs with
  | nil =>
    simp only [seqOption, Option.some.injEq] at h
    subst h
    rfl
  | cons o os ih =>
    cases o with
    | none => simp [seqOption] at h
    | some a =>
      cases hos : seqOption os with
      | none => simp [seqOption, hos] at h
      | some as =>
        simp only [seqOption, hos, Option.map_some', Option.some.injEq] at h
        subst h
        simp [ih hos]

/-- A successful `seqOption` is pointwise: every position of the input
list held `some` of the corresponding output element. -/
theorem seqOption_getElem {l : List (Option α)} {xs : List α}
    (h : seqOption l = some xs) (i : Nat) :
    l[i]? = xs[i]?.map some := by
  induction l generalizing xs i with
  | nil =>
    simp only [seqOption, Option.some.injEq] at h
    subst h
    simp
  | cons o os ih =>
    cases o with
    | none => simp [seqOption] at h
    | some a =>
      cases hos : seqOption os with
      | none => simp [seqOption, hos] at h
      | some as =>
        simp only [seqOption, hos, Option.map_some', Option.some.injEq] at h
        subst h
        cases i with
        | zero => simp
        | succ j => simpa using ih hos j

/-! ### Lemmas about the focus resolver -/

/-- If the pre-order search finds no path, the source's recursive search
finds nothing either. -/
theorem findRec_of_findPath_none :
    ∀ (ns : List NestedNode) (tgt : String), findPath ns tgt = none →
    ∀ (off : Coordinate) (root : NestedNode),
      findNodeAndGlobalOffsetRec ns off root tgt = none := by
  intro ns tgt
  induction ns, tgt using findPath.induct with
  | case1 tgt =>
    intro _ off root
    simp [findNodeAndGlobalOffsetRec]
  | case2 nm b cs a rest i =>
    intro h
    simp [findPath] at h
  | case3 i nm b cs a rest tgt hne p hp ih =>
    intro h
    simp only [findPath, if_neg hne, hp] at h
    exact Option.noConfusion h
  | case4 i nm b cs a rest tgt hne hp ihcs ihrest =>
    intro h off root
    simp only [findPath, if_neg hne, hp] at h
    rw [findNodeAndGlobalOffsetRec]
    simp only [if_neg hne, ihcs hp _ root, ihrest h _ root]

/-- When the pre-order search finds a path, `findNodeAndGlobalOffsetRec`
returns the original root, the path's last node with its `bounds.x/y`
zeroed, and the starting offset plus the path's componentwise bounds
sums. -/
theorem findRec_of_findPath :
    ∀ (ns : List NestedNode) (tgt : String) (path : List NestedNode),
    findPath ns tgt = some path →
    ∀ (off : Coordinate) (root : NestedNode), ∃ lst,
      path.getLast? = some lst ∧
      findNodeAndGlobalOffsetRec ns off root tgt =
        some ⟨root, zeroXY lst,
          ⟨off.x + (path.map (fun m => m.bounds.x)).sum,
           off.y + (path.map (fun m => m.bounds.y)).sum⟩⟩ := by
  intro ns tgt
  induction ns, tgt using findPath.induct with
  | case1 tgt =>
    intro path h
    simp [findPath] at h
  | case2 nm b cs a rest i =>
    intro path h off root
    simp only [findPath, if_true, eq_self_iff_true, Option.some.injEq] at h
    subst h
    refine ⟨NestedNode.mk i nm b cs a, by simp, ?_⟩
    rw [findNodeAndGlobalOffsetRec]
    simp [NestedNode.bounds]
  | case3 i nm b cs a rest tgt hne p hp ih =>
    intro path h off root
    simp only [findPath, if_neg hne, hp, Option.some.injEq] at h
    subst h
    obtain ⟨lst, hlast, hrec⟩ := ih p hp ⟨off.x + b.x, off.y + b.y⟩ root
    refine ⟨lst, ?_, ?_⟩
    · cases p with
      | nil => simp at hlast
      | cons q qs => simpa using hlast
    · rw [findNodeAndGlobalOffsetRec]
      simp only [if_neg hne]
      rw [hrec]
      simp [NestedNode.bounds, add_assoc]
  | case4 i nm b cs a rest tgt hne hp ihcs ihrest =>
    intro path h off root
    simp only [findPath, if_neg hne, hp] at h
    obtain ⟨lst, hlast, hrec⟩ := ihrest path h off root
    refine ⟨lst, hlast, ?_⟩
    rw [findNodeAndGlobalOffsetRec]
    simp only [if_neg hne, findRec_of_findPath_none cs tgt hp _ root]
    exact hrec

/-- A found path consists of nodes of the searched trees. -/
theorem findPath_subset :
    ∀ (ns : List NestedNode) (tgt : String) (path : List NestedNode),
    findPath ns tgt = some path → ∀ x ∈ path, x ∈ subtreeNodes ns := by
  intro ns tgt
  induction ns, tgt using findPath.induct with
  | case1 tgt =>
    intro path h
    simp [findPath] at h
  | case2 nm b cs a rest i =>
    intro path h x hx
    simp only [findPath, if_true, eq_self_iff_true, Option.some.injEq] at h
    subst h
    simp only [List.mem_singleton] at hx
    subst hx
    rw [subtreeNodes]
    exact List.mem_cons_self _ _
  | case3 i nm b cs a rest tgt hne p hp ih =>
    intro path h x hx
    simp only [findPath, if_neg hne, hp, Option.some.injEq] at h
    subst h
    rw [subtreeNodes]
    rcases List.mem_cons.mp hx with rfl | hx
    · exact List.mem_cons_self _ _
    · exact List.mem_cons_of_mem _ (List.mem_append_left _ (ih p hp x hx))
  | case4 i nm b cs a rest tgt hne hp ihcs ihrest =>
    intro path h x hx
    simp only [findPath, if_neg hne, hp] at h
    rw [subtreeNodes]
    exact List.mem_cons_of_mem _ (List.mem_append_right _ (ihrest path h x hx))

/-- A successful pre-order search means the target id occurs in the
trees. -/
theorem findPath_some_mem_ids :
    ∀ (ns : List NestedNode) (tgt : String) (path : List NestedNode),
    findPath ns tgt = some path →
    tgt ∈ (subtreeNodes ns).map NestedNode.id := by
  intro ns tgt
  induction ns, tgt using findPath.induct with
  | case1 tgt =>
    intro path h
    simp [findPath] at h
  | case2 nm b cs a rest i =>
    intro path _
    rw [subtreeNodes]
    simp [NestedNode.id]
  | case3 i nm b cs a rest tgt hne p hp ih =>
    intro path _
    rw [subtreeNodes]
    simp only [List.map_cons, List.map_append, List.mem_cons, List.mem_append]
    exact Or.inr (Or.inl (by simpa using ih p hp))
  | case4 i nm b cs a rest tgt hne hp ihcs ihrest =>
    intro path h
    simp only [findPath, if_neg hne, hp] at h
    rw [subtreeNodes]
    simp only [List.map_cons, List.map_append, List.mem_cons, List.mem_append]
    exact Or.inr (Or.inr (by simpa using ihrest path h))

/-- An id that occurs nowhere in the trees is never found. -/
theorem findPath_none_of_not_mem_ids {ns : List NestedNode} {tgt : String}
    (h : tgt ∉ (subtreeNodes ns).map NestedNode.id) :
    findPath ns tgt = none := by
  cases hp : findPath ns tgt with
  | none => rfl
  | some path => exact absurd (findPath_some_mem_ids ns tgt path hp) h

/-! ### Lemmas about the hit tester -/

/-- Plain unfolding equation for `hitTestNodes` on a `cons` (the
definition's match names its discriminant for the termination argument,
which makes it awkward to rewrite with directly). -/
theorem hitTestNodes_cons (i nm : String) (b : Bounds)
    (cs : List NestedNode) (a : Option Int) (rest : List NestedNode)
    (p : Coordinate) :
    hitTestNodes (NestedNode.mk i nm b cs a :: rest) p =
      match candidates cs a with
      | none => none
      | some kids =>
        match hitTestNodes kids (offsetCoordinate p ⟨b.x, b.y⟩) with
        | none => none
        | some (childHit, childRes) =>
          match hitTestNodes rest p with
          | none => none
          | some (restHit, restRes) =>
            some (boundsContainsCoordinate b p && !childHit || restHit,
              childRes ++
                (if boundsContainsCoordinate b p && !childHit then
                  [NestedNode.mk i nm b cs a] else []) ++ restRes) := by
  rw [hitTestNodes]
  cases hc : candidates cs a with
  | none => rfl
  | some kids => rfl

/-- Conditional, match-free unfolding of `hitTestNodes` on a `cons`: once
the candidate selection and both recursive calls are known, the result is
the assembled pair. -/
theorem hitTestNodes_cons_eval (i nm : String) (b : Bounds)
    (cs : List NestedNode) (a : Option Int) (rest : List NestedNode)
    (p q : Coordinate) (kids : List NestedNode) (bc : Bool)
    (lc : List NestedNode) (br : Bool) (lr : List NestedNode)
    (hq : offsetCoordinate p ⟨b.x, b.y⟩ = q)
    (hk : candidates cs a = some kids)
    (h1 : hitTestNodes kids q = some (bc, lc))
    (h2 : hitTestNodes rest p = some (br, lr)) :
    hitTestNodes (NestedNode.mk i nm b cs a :: rest) p =
      some (boundsContainsCoordinate b p && !bc || br,
        lc ++ (if boundsContainsCoordinate b p && !bc then
          [NestedNode.mk i nm b cs a] else []) ++ lr) := by
  rw [hitTestNodes_cons]
  simp only [hk, hq, h1, h2]

/-- Every node pushed by the hit-test recursion is reachable through
candidate-child edges only (pruned siblings are never visited). -/
theorem hitTestNodes_subset_visible :
    ∀ (ns : List NestedNode) (p : Coordinate) (b : Bool) (l : List NestedNode),
    hitTestNodes ns p = some (b, l) → ∀ x ∈ l, x ∈ visibleNodes ns := by
  intro ns p
  induction ns, p using hitTestNodes.induct with
  | case1 p =>
    intro b l h
    simp only [hitTestNodes, Option.some.injEq, Prod.mk.injEq] at h
    simp [← h.2]
  | case2 i nm bb cs a rest p hk =>
    intro b l h
    rw [hitTestNodes_cons] at h
    simp only [hk] at h
    exact Option.noConfusion h
  | case3 i nm bb cs a rest p kids hk h1 ih =>
    intro b l h
    rw [hitTestNodes_cons] at h
    simp only [hk, h1] at h
    exact Option.noConfusion h
  | case4 i nm bb cs a rest p kids hk ch lc h1 h2 ihkids ihrest =>
    intro b l h
    rw [hitTestNodes_cons] at h
    simp only [hk, h1, h2] at h
    exact Option.noConfusion h
  | case5 i nm bb cs a rest p kids hk ch lc h1 rh lr h2 ihkids ihrest =>
    intro b l h
    rw [hitTestNodes_cons] at h
    simp only [hk, h1, h2, Option.some.injEq, Prod.mk.injEq] at h
    obtain ⟨-, hl⟩ := h
    subst hl
    intro x hx
    rw [visibleNodes]
    simp only [hk, Option.getD_some]
    rcases List.mem_append.mp hx with hx' | hx'
    · rcases List.mem_append.mp hx' with hx'' | hx''
      · exact List.mem_cons_of_mem _
          (List.mem_append_left _ (ihkids ch lc h1 x hx''))
      · rcases List.mem_ite_nil_right.mp hx'' with ⟨-, hxm⟩
        rcases List.mem_singleton.mp hxm with rfl
        exact List.mem_cons_self _ _
    · exact List.mem_cons_of_mem _
        (List.mem_append_right _ (ihrest rh lr h2 x hx'))

/-- A candidate child is a structurally smaller term than its child
list. -/
theorem candidates_mem_sizeOf_lt {cs : List NestedNode} {a : Option Int}
    {kids : List NestedNode} (h : candidates cs a = some kids)
    {k : NestedNode} (hkm : k ∈ kids) : sizeOf k < sizeOf cs := by
  cases a with
  | none =>
    simp only [candidates, Option.some.injEq] at h
    subst h
    exact List.sizeOf_lt_of_mem hkm
  | some j =>
    simp only [candidates] at h
    split at h
    · cases h
      rename_i hrange
      rcases List.mem_singleton.mp hkm with rfl
      exact List.sizeOf_lt_of_mem (List.get_mem cs j.toNat hrange.2)
    · cases h

/-- Every visited node is bounded in size by one of the roots it is
reachable from. -/
theorem visibleNodes_sizeOf_le :
    ∀ (ns : List NestedNode), ∀ x ∈ visibleNodes ns,
      ∃ n0 ∈ ns, sizeOf x ≤ sizeOf n0 := by
  intro ns
  induction ns using visibleNodes.induct with
  | case1 =>
    intro x hx
    simp [visibleNodes] at hx
  | case2 i nm bb cs a rest ihkids ihrest =>
    intro x hx
    rw [visibleNodes] at hx
    rcases List.mem_cons.mp hx with rfl | hx'
    · exact ⟨NestedNode.mk i nm bb cs a, List.mem_cons_self _ _, le_rfl⟩
    · rcases List.mem_append.mp hx' with hx'' | hx''
      · obtain ⟨n0, hn0, hsz⟩ := ihkids x hx''
        refine ⟨NestedNode.mk i nm bb cs a, List.mem_cons_self _ _, ?_⟩
        have hlt : sizeOf n0 < sizeOf cs := by
          rcases hc : candidates cs a with _ | kids
          · rw [hc] at hn0
            simp at hn0
          · rw [hc] at hn0
            exact candidates_mem_sizeOf_lt hc (by simpa using hn0)
        have : sizeOf cs < sizeOf (NestedNode.mk i nm bb cs a) := by
          simp
          omega
        omega
      · obtain ⟨n0, hn0, hsz⟩ := ihrest x hx''
        exact ⟨n0, List.mem_cons_of_mem _ hn0, hsz⟩

/-! ### Lemmas about the tree projector -/

/-- Shape of a successful projection step: the projected node carries the
raw node's `id`, `name` and `bounds`, the `indexOf`-based active-child
index over the filtered child list, and children obtained by projecting
(at one fuel less) the nodes the map assigns to the surviving child
ids. -/
theorem uiNodeToNestedNode_succ_eq {nodes : NodeMap} {f : Nat}
    {n : ClientNode} {t : NestedNode}
    (h : uiNodeToNestedNode nodes (f + 1) n = some t) :
    ∃ cs, seqOption ((n.children.filter
          (fun c => (nodes.get c).isSome)).map
        (fun c => (nodes.get c).bind (uiNodeToNestedNode nodes f))) =
        some cs ∧
      t = NestedNode.mk n.id n.name n.bounds cs
        (n.activeChild.map (fun a2 => indexOfId
          (n.children.filter (fun c => (nodes.get c).isSome)) a2)) := by
  simp only [uiNodeToNestedNode, Option.map_eq_some'] at h
  obtain ⟨cs, hcs, ht⟩ := h
  exact ⟨cs, hcs, ht.symm⟩

/-! ### Lemmas about the overlay offset accumulator -/

/-- A terminating run of the `getTotalOffset` loop returns the starting
accumulator plus the componentwise bounds sums over the visited parent
chain. -/
theorem getTotalOffsetLoop_eq_chain_sum (nodes : NodeMap) :
    ∀ (fuel : Nat) (cur : Option String) (acc off : Coordinate),
    getTotalOffsetLoop nodes fuel cur acc = some off →
    ∃ chain, parentChain nodes fuel cur = some chain ∧
      off.x = acc.x + (chain.map (fun c => c.bounds.x)).sum ∧
      off.y = acc.y + (chain.map (fun c => c.bounds.y)).sum := by
  intro fuel
  induction fuel with
  | zero =>
    intro cur acc off h
    cases cur with
    | none =>
      simp only [getTotalOffsetLoop, Option.some.injEq] at h
      subst h
      exact ⟨[], rfl, by simp, by simp⟩
    | some i => simp [getTotalOffsetLoop] at h
  | succ f ih =>
    intro cur acc off h
    cases cur with
    | none =>
      simp only [getTotalOffsetLoop, Option.some.injEq] at h
      subst h
      exact ⟨[], rfl, by simp, by simp⟩
    | some i =>
      rw [getTotalOffsetLoop] at h
      cases hg : nodes.get i with
      | some curN =>
        rw [hg] at h
        obtain ⟨chain, hchain, hx, hy⟩ := ih curN.parent _ off h
        refine ⟨curN :: chain, ?_, ?_, ?_⟩
        · rw [parentChain, hg]
          simp [hchain]
        · simpa [add_assoc] using hx
        · simpa [add_assoc] using hy
      | none =>
        rw [hg] at h
        simp only [Option.some.injEq] at h
        subst h
        refine ⟨[], ?_, by simp, by simp⟩
        rw [parentChain, hg]

/-- Base equation for `hitTestNodes` on the empty sibling list. -/
theorem hitTestNodes_nil (p : Coordinate) :
    hitTestNodes [] p = some (false, []) := by
  rw [hitTestNodes]

/-! ### Claims -/

/-- C1, counterexample: in `exDangMap` the root's `activeChild` is the
dangling id `"ghost"`; the projected `activeChildIdx` is `some (-1)`
(the `indexOf` miss value), not `undefined` as the claim states. -/
theorem claim_C1_counterexample :
    toNestedNode 2 "A" exDangMap = some exDangTreeA ∧
    exDangTreeA.activeChildIdx = some (-1) ∧
    exDangTreeA.activeChildIdx ≠ none := by
  refine ⟨by rfl, rfl, by simp [exDangTreeA, NestedNode.activeChildIdx]⟩

/-- C1, amended: projection maps an unset `activeChild` to an unset
`activeChildIdx`; an `activeChild` occurring in the filtered child list
to its first position in that list; and an `activeChild` that does not
occur among the filtered children (in particular one referring to a
dropped, dangling child) to `-1` — not to `undefined`. -/
theorem claim_C1_active_child_index {nodes : NodeMap} {f : Nat}
    {n : ClientNode} {t : NestedNode}
    (h : uiNodeToNestedNode nodes (f + 1) n = some t) :
    (n.activeChild = none → t.activeChildIdx = none) ∧
    (∀ a2 j, n.activeChild = some a2 →
      (n.children.filter (fun c => (nodes.get c).isSome)).findIdx?
          (· = a2) = some j →
      t.activeChildIdx = some (j : Int)) ∧
    (∀ a2, n.activeChild = some a2 →
      a2 ∉ n.children.filter (fun c => (nodes.get c).isSome) →
      t.activeChildIdx = some (-1)) := by
  obtain ⟨cs, -, ht⟩ := uiNodeToNestedNode_succ_eq h
  subst ht
  refine ⟨?_, ?_, ?_⟩
  · intro ha
    simp [NestedNode.activeChildIdx, ha]
  · intro a2 j ha hj
    simp [NestedNode.activeChildIdx, ha, indexOfId, hj]
  · intro a2 ha hmem
    have hnone : (n.children.filter
        (fun c => (nodes.get c).isSome)).findIdx? (· = a2) = none := by
      rw [List.findIdx?_eq_none_iff]
      intro x hx
      simp only [decide_eq_false_iff_not]
      intro hxe
      exact hmem (hxe ▸ hx)
    simp [NestedNode.activeChildIdx, ha, indexOfId, hnone]

/-- C1, witness: in `exActMap` the root's `activeChild = "C"` resolves at
position 1 of the filtered children, so `activeChildIdx = 1`. -/
theorem claim_C1_witness : exActTree.activeChildIdx = some 1 :=
  (@claim_C1_active_child_index exActMap 1 exActA exActTree
      (by rfl)).2.1 "C" 1 rfl (by rfl)

/-- C2: the claimed safety property fails on the code. Projecting
`exDangMap` (whose root has a dangling `activeChild`) yields
`activeChildIdx = -1`, a non-null but invalid index, and `hitTest` on
that tree dereferences the missing node `children[-1]` — modelled as the
crash result `none`. -/
theorem claim_C2_hitTest_not_total :
    toNestedNode 2 "A" exDangMap = some exDangTreeA ∧
    exDangTreeA.activeChildIdx = some (-1) ∧
    hitTest exDangTreeA ⟨0, 0⟩ = none := by
  refine ⟨by rfl, rfl, ?_⟩
  rw [hitTest]
  rw [show exDangTreeA =
    NestedNode.mk "A" "A" ⟨0, 0, 100, 100⟩ [exDangTreeB] (some (-1)) from rfl]
  rw [hitTestNodes_cons]
  simp [candidates]

/-- C3: when the pre-order search finds the target (`path` from the root
down to and including the target, whose last node is `lst`), the focus
state consists of the original root, a copy of the target with `bounds.x`
and `bounds.y` zeroed and every other field unchanged, and the
componentwise sum of `bounds.x`/`bounds.y` along the path. -/
theorem claim_C3_focus_offset_is_path_sum {root : NestedNode} {tgt : String}
    {path : List NestedNode} {lst : NestedNode}
    (hp : findPath [root] tgt = some path)
    (hl : path.getLast? = some lst) :
    caclulateFocusState root (some tgt) =
      { actualRoot := root
        focusedRoot := zeroXY lst
        focusedRootGlobalOffset :=
          ⟨(path.map (fun m => m.bounds.x)).sum,
           (path.map (fun m => m.bounds.y)).sum⟩ } ∧
    (zeroXY lst).bounds.x = 0 ∧ (zeroXY lst).bounds.y = 0 ∧
    (zeroXY lst).bounds.width = lst.bounds.width ∧
    (zeroXY lst).bounds.height = lst.bounds.height ∧
    (zeroXY lst).id = lst.id ∧ (zeroXY lst).name = lst.name ∧
    (zeroXY lst).children = lst.children ∧
    (zeroXY lst).activeChildIdx = lst.activeChildIdx := by
  obtain ⟨lst', hl', hrec⟩ := findRec_of_findPath [root] tgt path hp ⟨0, 0⟩ root
  rw [hl] at hl'
  obtain rfl : lst = lst' := by
    simpa using hl'
  constructor
  · rw [caclulateFocusState]
    rw [hrec]
    simp
  · cases lst with
    | mk i n b cs a =>
      simp [zeroXY, NestedNode.bounds, NestedNode.id, NestedNode.name,
        NestedNode.children, NestedNode.activeChildIdx]

/-- C3, witness: `R (0,0,200,200) ⊃ A (10,10,50,50) ⊃ B (5,5,20,20)`;
focusing `B` gives offset `(15,15)` and `focusedRoot` bounds
`(0,0,20,20)`. -/
theorem claim_C3_witness :
    caclulateFocusState exFocR (some "B") =
      { actualRoot := exFocR
        focusedRoot := NestedNode.mk "B" "B" ⟨0, 0, 20, 20⟩ [] none
        focusedRootGlobalOffset := ⟨15, 15⟩ } := by
  have hp : findPath [exFocR] "B" = some [exFocR, exFocA, exFocB] := by
    simp [findPath, exFocR, exFocA, exFocB]
  have h := (@claim_C3_focus_offset_is_path_sum exFocR "B"
    [exFocR, exFocA, exFocB] exFocB hp (by rfl)).1
  rw [h]
  simp [zeroXY, exFocR, exFocA, exFocB, NestedNode.bounds]
  norm_num

/-- C7: projection returns `undefined` exactly when the root id is absent;
a successfully projected node keeps the raw `id`, `name` and `bounds`,
and its children are, in order, the recursive projections of the nodes
the map assigns to the resolvable raw child ids (dangling ids dropped). -/
theorem claim_C7_projection_children :
    (∀ (fuel : Nat) (r : String) (nodes : NodeMap),
       nodes.get r = none → toNestedNode fuel r nodes = none) ∧
    (∀ (fuel : Nat) (r : String) (nodes : NodeMap) (n : ClientNode),
       nodes.get r = some n →
       toNestedNode fuel r nodes = uiNodeToNestedNode nodes fuel n) ∧
    (∀ (f : Nat) (nodes : NodeMap) (n : ClientNode) (t : NestedNode),
       uiNodeToNestedNode nodes (f + 1) n = some t →
       t.id = n.id ∧ t.name = n.name ∧ t.bounds = n.bounds ∧
       t.children.length =
         (n.children.filter (fun c => (nodes.get c).isSome)).length ∧
       ∀ (j : Nat) (cid : String) (tj : NestedNode),
         (n.children.filter (fun c => (nodes.get c).isSome))[j]? = some cid →
         t.children[j]? = some tj →
         (nodes.get cid).bind (uiNodeToNestedNode nodes f) = some tj) := by
  refine ⟨?_, ?_, ?_⟩
  · intro fuel r nodes h
    rw [toNestedNode, h]
  · intro fuel r nodes n h
    rw [toNestedNode, h]
  · intro f nodes n t h
    obtain ⟨cs, hcs, ht⟩ := uiNodeToNestedNode_succ_eq h
    subst ht
    refine ⟨rfl, rfl, rfl, ?_, ?_⟩
    · simpa using seqOption_length hcs
    · intro j cid tj hcid htj
      have hpt := seqOption_getElem hcs j
      rw [List.getElem?_map, hcid] at hpt
      simp only [NestedNode.children] at htj
      rw [htj] at hpt
      simpa using hpt

/-- C7, witness: in `exGhostMap` the root lists the dangling child
`"ghost"`, which is dropped: the projected child count equals the
filtered child count (1), and a missing root id projects to
`undefined`. -/
theorem claim_C7_witness :
    toNestedNode 2 "nope" exGhostMap = none ∧
    exGhostTree.children.length =
      (exRawG.children.filter
        (fun c => (exGhostMap.get c).isSome)).length := by
  constructor
  · exact claim_C7_projection_children.1 2 "nope" exGhostMap (by rfl)
  · exact (claim_C7_projection_children.2.2 1 exGhostMap exRawG exGhostTree
      (by rfl)).2.2.2.1

/-- C8: a missing target is a defined fallback, not an error: with no
target, and likewise with a target id that occurs nowhere in the tree,
`caclulateFocusState` returns the trivial whole-tree state. -/
theorem claim_C8_focus_fallback :
    (∀ root : NestedNode,
       caclulateFocusState root none = ⟨root, root, ⟨0, 0⟩⟩) ∧
    (∀ (root : NestedNode) (tgt : String),
       tgt ∉ (subtreeNodes [root]).map NestedNode.id →
       caclulateFocusState root (some tgt) = ⟨root, root, ⟨0, 0⟩⟩) := by
  constructor
  · intro root
    rfl
  · intro root tgt h
    rw [caclulateFocusState]
    rw [findRec_of_findPath_none [root] tgt (findPath_none_of_not_mem_ids h)
      ⟨0, 0⟩ root]
    rfl

/-- C8, witness: focusing the id `"nonexistent-id"`, absent from the
`R ⊃ A ⊃ B` example tree, returns the trivial state. -/
theorem claim_C8_witness :
    caclulateFocusState exFocR (some "nonexistent-id") =
      ⟨exFocR, exFocR, ⟨0, 0⟩⟩ := by
  apply claim_C8_focus_fallback.2
  simp [subtreeNodes, exFocR, exFocA, exFocB, NestedNode.id]

/-- C4, counterexample: in the chain `A ⊃ B ⊃ C`, with all three nodes
containing the pointer (2,2), the result is `[C, A]`: `A` is reported
although its strict descendant `C` was hit (only `B`, whose direct child
was hit, is suppressed), refuting the "none of its descendants were hit"
reading. -/
theorem claim_C4_counterexample :
    hitTest exDeepA ⟨2, 2⟩ = some [exDeepC, exDeepA] ∧
    exDeepC ∈ subtreeNodes exDeepA.children ∧ exDeepC ≠ exDeepA := by
  refine ⟨?_, ?_, ?_⟩
  · simp [hitTest, hitTestNodes, candidates, boundsContainsCoordinate,
      offsetCoordinate, sortByArea, insertByArea, area, NestedNode.bounds,
      exDeepA, exDeepB, exDeepC]
    norm_num
  · simp [subtreeNodes, exDeepA, exDeepB, exDeepC, NestedNode.children]
  · simp [exDeepC, exDeepA]

/-- C4, amended: a node is reported exactly when it contains the pointer
(in its parent's frame) and none of its candidate children was itself a
reported (terminal) hit — the suppression looks one level deep, at the
candidate children, not at all descendants. The node itself never occurs
among its children's pushes, so membership in the node's combined output
is equivalent to that condition. -/
theorem claim_C4_hit_iff_no_child_hit {i nm : String} {b : Bounds}
    {cs : List NestedNode} {a : Option Int} {p : Coordinate}
    {kids lc : List NestedNode} {bc : Bool}
    (hk : candidates cs a = some kids)
    (h1 : hitTestNodes kids (offsetCoordinate p ⟨b.x, b.y⟩) =
      some (bc, lc)) :
    hitTestNodes [NestedNode.mk i nm b cs a] p =
      some (boundsContainsCoordinate b p && !bc,
        lc ++ (if boundsContainsCoordinate b p && !bc then
          [NestedNode.mk i nm b cs a] else [])) ∧
    (NestedNode.mk i nm b cs a ∈
        lc ++ (if boundsContainsCoordinate b p && !bc then
          [NestedNode.mk i nm b cs a] else []) ↔
      (boundsContainsCoordinate b p && !bc) = true) := by
  have hnotin : NestedNode.mk i nm b cs a ∉ lc := by
    intro hmem
    have hvis := hitTestNodes_subset_visible kids _ bc lc h1 _ hmem
    obtain ⟨n0, hn0, hsz⟩ := visibleNodes_sizeOf_le kids _ hvis
    have h2 := candidates_mem_sizeOf_lt hk hn0
    have h3 : sizeOf cs < sizeOf (NestedNode.mk i nm b cs a) := by
      simp
      omega
    omega
  refine ⟨?_, ?_, ?_⟩
  · rw [hitTestNodes_cons]
    simp only [hk, h1, hitTestNodes_nil]
    simp
  · intro hmem
    rcases List.mem_append.mp hmem with hmem' | hmem'
    · exact absurd hmem' hnotin
    · exact (List.mem_ite_nil_right.mp hmem').1
  · intro hc
    rw [hc]
    simp

/-- C4, witness: the two-level example — root (0,0,100,100) over child C
(10,10,20,20), pointer (15,15) — returns `[C]` only, not `[root, C]`. -/
theorem claim_C4_witness :
    hitTest exHitRoot ⟨15, 15⟩ = some [exHitC] := by
  have h1 : hitTestNodes [exHitC]
      (offsetCoordinate ⟨15, 15⟩ ⟨(0 : Rat), (0 : Rat)⟩) =
      some (true, [exHitC]) := by
    simp [hitTestNodes, candidates, offsetCoordinate,
      boundsContainsCoordinate, exHitC]
    norm_num
  have h := (@claim_C4_hit_iff_no_child_hit "root" "root" ⟨0, 0, 100, 100⟩
    [exHitC] none ⟨15, 15⟩ [exHitC] [exHitC] true rfl h1).1
  rw [hitTest,
    show exHitRoot =
      NestedNode.mk "root" "root" ⟨0, 0, 100, 100⟩ [exHitC] none from rfl,
    h]
  simp [sortByArea, insertByArea]

/-- C5: hit results only ever contain candidate-reachable nodes; a node
with a valid `activeChildIdx` exposes only that child (no sibling, nor
anything below a sibling, is reachable); concretely, with overlapping
children `[D, E]` and active index 1 the pointer (10,10) hits `[E]`, and
`D` is not reachable at all. -/
theorem claim_C5_active_child_pruning :
    (∀ (t : NestedNode) (p : Coordinate) (l : List NestedNode),
       hitTest t p = some l → ∀ x ∈ l, x ∈ visibleNodes [t]) ∧
    (∀ (i nm : String) (b : Bounds) (cs : List NestedNode) (k : Int)
       (h : 0 ≤ k ∧ k.toNat < cs.length),
       visibleNodes [NestedNode.mk i nm b cs (some k)] =
         NestedNode.mk i nm b cs (some k) ::
           visibleNodes [cs.get ⟨k.toNat, h.2⟩]) ∧
    hitTest exTabRoot ⟨10, 10⟩ = some [exTabE] ∧
    exTabD ∉ visibleNodes [exTabRoot] := by
  refine ⟨?_, ?_, ?_, ?_⟩
  · intro t p l h x hx
    rw [hitTest] at h
    obtain ⟨⟨bb, r⟩, hr, hl⟩ := Option.map_eq_some'.mp h
    subst hl
    exact hitTestNodes_subset_visible [t] p bb r hr x (mem_sortByArea.mp hx)
  · intro i nm b cs k h
    rw [visibleNodes]
    rw [show candidates cs (some k) = some [cs.get ⟨k.toNat, h.2⟩] by
      simp only [candidates]
      rw [dif_pos h]]
    simp [visibleNodes]
  · simp [hitTest, hitTestNodes, candidates, boundsContainsCoordinate,
      offsetCoordinate, sortByArea, insertByArea, area, NestedNode.bounds,
      exTabRoot, exTabD, exTabE]
  · rw [show visibleNodes [exTabRoot] = [exTabRoot, exTabE] by
      simp [visibleNodes, candidates, exTabRoot, exTabD, exTabE]]
    simp [exTabD, exTabRoot, exTabE]

/-- C5, witness: the overlapping-tabs example hits `[E]` only. -/
theorem claim_C5_witness : hitTest exTabRoot ⟨10, 10⟩ = some [exTabE] :=
  claim_C5_active_child_pruning.2.2.1

/-- C6, counterexample: focusing the root itself (`exSolo`, a single node
at (5,7)) produces a state that is neither the trivial state (the focused
root differs from the actual root and the offset is (5,7), not (0,0)) nor
a zeroed copy of a proper descendant (the root has no descendants). -/
theorem claim_C6_counterexample :
    caclulateFocusState exSolo (some "solo") =
      { actualRoot := exSolo
        focusedRoot := NestedNode.mk "solo" "solo" ⟨0, 0, 10, 10⟩ [] none
        focusedRootGlobalOffset := ⟨5, 7⟩ } ∧
    NestedNode.mk "solo" "solo" ⟨0, 0, 10, 10⟩ [] none ≠ exSolo ∧
    subtreeNodes exSolo.children = [] ∧
    (⟨5, 7⟩ : Coordinate) ≠ (⟨0, 0⟩ : Coordinate) := by
  refine ⟨?_, ?_, ?_, ?_⟩
  · rw [caclulateFocusState]
    simp [findNodeAndGlobalOffsetRec, exSolo, zeroXY]
  · simp only [exSolo, ne_eq, NestedNode.mk.injEq]
    intro h
    have hb := h.2.2.1
    rw [Bounds.mk.injEq] at hb
    norm_num at hb
  · simp [exSolo, NestedNode.children, subtreeNodes]
  · simp only [ne_eq, Coordinate.mk.injEq]
    norm_num

/-- C6, amended: for every tree and optional target, `actualRoot` is the
given root, and the focused root is either the root itself with offset
(0,0), or a copy of some node occurring in the tree — possibly the root
itself, not only a proper descendant — with its `bounds.x/y` zeroed. -/
theorem claim_C6_focus_invariant (root : NestedNode)
    (target : Option String) :
    (caclulateFocusState root target).actualRoot = root ∧
    (((caclulateFocusState root target).focusedRoot = root ∧
      (caclulateFocusState root target).focusedRootGlobalOffset =
        ⟨0, 0⟩) ∨
     (∃ d, d ∈ subtreeNodes [root] ∧
       (caclulateFocusState root target).focusedRoot = zeroXY d)) := by
  cases target with
  | none => exact ⟨rfl, Or.inl ⟨rfl, rfl⟩⟩
  | some t =>
    cases hf : findPath [root] t with
    | none =>
      rw [caclulateFocusState,
        findRec_of_findPath_none [root] t hf ⟨0, 0⟩ root]
      exact ⟨rfl, Or.inl ⟨rfl, rfl⟩⟩
    | some path =>
      obtain ⟨lst, hlast, hrec⟩ :=
        findRec_of_findPath [root] t path hf ⟨0, 0⟩ root
      rw [caclulateFocusState, hrec]
      exact ⟨rfl, Or.inr ⟨lst, findPath_subset [root] t path hf lst
        (List.mem_of_getLast?_eq_some hlast), rfl⟩⟩

/-- C9: the hit-test result is sorted ascending by bounding-box area
(`width * height`), smallest first; concretely, two terminal hits of
areas 400 and 100 come back as `[smallArea, largeArea]`. -/
theorem claim_C9_sorted_by_area :
    (∀ (t : NestedNode) (p : Coordinate) (l : List NestedNode),
       hitTest t p = some l →
       l.Pairwise (fun u v => area u ≤ area v)) ∧
    hitTest exSortRoot ⟨5, 5⟩ = some [exSmallHit, exBigHit] ∧
    area exSmallHit = 100 ∧ area exBigHit = 400 := by
  refine ⟨?_, ?_, ?_, ?_⟩
  · intro t p l h
    rw [hitTest] at h
    obtain ⟨r, hr, hl⟩ := Option.map_eq_some'.mp h
    rw [← hl]
    exact pairwise_sortByArea r.2
  · have hsmall : hitTestNodes [exSmallHit] (⟨5, 5⟩ : Coordinate) =
        some (true, [exSmallHit]) := by
      rw [show exSmallHit =
        NestedNode.mk "small" "small" ⟨0, 0, 10, 10⟩ [] none from rfl]
      rw [hitTestNodes_cons_eval "small" "small" ⟨0, 0, 10, 10⟩ [] none []
        ⟨5, 5⟩ ⟨5, 5⟩ [] false [] false []
        (by norm_num [offsetCoordinate]) rfl (hitTestNodes_nil _)
        (hitTestNodes_nil _)]
      norm_num [boundsContainsCoordinate]
    have hkids : hitTestNodes [exBigHit, exSmallHit] (⟨5, 5⟩ : Coordinate) =
        some (true, [exBigHit, exSmallHit]) := by
      rw [show exBigHit =
        NestedNode.mk "big" "big" ⟨0, 0, 20, 20⟩ [] none from rfl]
      rw [hitTestNodes_cons_eval "big" "big" ⟨0, 0, 20, 20⟩ [] none
        [exSmallHit] ⟨5, 5⟩ ⟨5, 5⟩ [] false [] true [exSmallHit]
        (by norm_num [offsetCoordinate]) rfl (hitTestNodes_nil _) hsmall]
      norm_num [boundsContainsCoordinate, exBigHit]
    have hroot : hitTestNodes [exSortRoot] (⟨5, 5⟩ : Coordinate) =
        some (false, [exBigHit, exSmallHit]) := by
      rw [show exSortRoot = NestedNode.mk "sroot" "sroot" ⟨0, 0, 100, 100⟩
          [exBigHit, exSmallHit] none from rfl]
      rw [hitTestNodes_cons_eval "sroot" "sroot" ⟨0, 0, 100, 100⟩
        [exBigHit, exSmallHit] none [] ⟨5, 5⟩ ⟨5, 5⟩
        [exBigHit, exSmallHit] true [exBigHit, exSmallHit] false []
        (by norm_num [offsetCoordinate]) rfl hkids (hitTestNodes_nil _)]
      norm_num
    rw [hitTest, hroot]
    norm_num [sortByArea, insertByArea, area, NestedNode.bounds,
      exBigHit, exSmallHit]
  · norm_num [area, exSmallHit, NestedNode.bounds]
  · norm_num [area, exBigHit, NestedNode.bounds]

/-- C9, witness: the concrete result list `[smallArea, largeArea]` is
sorted ascending by area. -/
theorem claim_C9_witness :
    List.Pairwise (fun u v => area u ≤ area v) [exSmallHit, exBigHit] :=
  claim_C9_sorted_by_area.1 exSortRoot ⟨5, 5⟩ _ claim_C9_sorted_by_area.2.1

/-- C10: a terminating `getTotalOffset` run returns exactly the
componentwise sums of `bounds.x`/`bounds.y` over the chain of nodes
visited by following `parent` links (stopping at a null or unresolved
link), and an id absent from the map yields `(0,0)`. -/
theorem claim_C10_total_offset :
    (∀ (fuel : Nat) (i : String) (nodes : NodeMap) (off : Coordinate),
       getTotalOffset fuel i nodes = some off →
       ∃ chain, parentChain nodes fuel (some i) = some chain ∧
         off.x = (chain.map (fun c => c.bounds.x)).sum ∧
         off.y = (chain.map (fun c => c.bounds.y)).sum) ∧
    (∀ (fuel : Nat) (i : String) (nodes : NodeMap),
       nodes.get i = none →
       getTotalOffset (fuel + 1) i nodes = some ⟨0, 0⟩) := by
  constructor
  · intro fuel i nodes off h
    obtain ⟨chain, hc, hx, hy⟩ :=
      getTotalOffsetLoop_eq_chain_sum nodes fuel (some i) ⟨0, 0⟩ off h
    exact ⟨chain, hc, by simpa using hx, by simpa using hy⟩
  · intro fuel i nodes h
    rw [getTotalOffset, getTotalOffsetLoop, h]

/-- C10, witness: in the two-node chain `q → p`, the offset of `q` is
`(5+3, 6+4) = (8, 10)`, the sums over the visited chain `[q, p]`; and a
missing id returns `(0,0)`. -/
theorem claim_C10_witness :
    getTotalOffset 5 "q" exOffMap = some ⟨8, 10⟩ ∧
    parentChain exOffMap 5 (some "q") = some [exOffQ, exOffP] ∧
    ((8 : Rat) = ([exOffQ, exOffP].map (fun c => c.bounds.x)).sum ∧
     (10 : Rat) = ([exOffQ, exOffP].map (fun c => c.bounds.y)).sum) ∧
    getTotalOffset 3 "stale" exOffMap = some ⟨0, 0⟩ := by
  have hrun : getTotalOffset 5 "q" exOffMap = some ⟨8, 10⟩ := by
    norm_num [getTotalOffset, getTotalOffsetLoop, NodeMap.get, exOffMap,
      exOffQ, exOffP, List.lookup,
      show ("q" == "p") = false from rfl, show ("q" == "q") = true from rfl,
      show ("p" == "p") = true from rfl]
  obtain ⟨chain, hc, hx, hy⟩ :=
    claim_C10_total_offset.1 5 "q" exOffMap ⟨8, 10⟩ hrun
  have hpc : parentChain exOffMap 5 (some "q") = some [exOffQ, exOffP] := by
    norm_num [parentChain, NodeMap.get, exOffMap, exOffQ, exOffP,
      List.lookup,
      show ("q" == "p") = false from rfl, show ("q" == "q") = true from rfl,
      show ("p" == "p") = true from rfl]
  rw [hpc] at hc
  obtain rfl : chain = [exOffQ, exOffP] := by simpa using hc.symm
  have hstale : getTotalOffset 3 "stale" exOffMap = some ⟨0, 0⟩ :=
    claim_C10_total_offset.2 2 "stale" exOffMap (by rfl)
  exact ⟨hrun, hpc, ⟨hx, hy⟩, hstale⟩
